import Mathlib

/-!
Shallow embedding of the EEG time-frequency pipeline
(`src/erp_and_tfr_figure.py`, `src/tfr_mne_sample.py`) and proofs about it.

Signal values are modelled as exact rationals (`ℚ`); the logratio baseline
normalizer, which applies a base-10 logarithm, is modelled over `ℝ` with
`Real.logb`.  Matrices (frequency × time, or channel × time) are lists of
rows.  Library calls whose implementation is not part of the repository
(the MNE wavelet transform internals, per-epoch baseline correction, the
numpy percentile) are embedded following their documented semantics; such
definitions are marked `Modelled from the spec:` in their doc comments.
-/

namespace EegTfr

/-- Arithmetic mean of a list of rationals (`0` for the empty list, since
`0/0 = 0` in `ℚ`). -/
def listMean (xs : List ℚ) : ℚ := xs.sum / xs.length

/-- The contiguous window of `n` samples starting at index `i0`
(the index range a `(bmin, bmax)` time interval selects). -/
def window (xs : List α) (i0 n : ℕ) : List α := (xs.drop i0).take n

/-- `np.nanpercentile(xs, 98)` on a list of finite values: sort, take the
position `0.98 * (n - 1)` and linearly interpolate between the two
neighbouring order statistics (numpy's default "linear" interpolation).
The position arithmetic is done exactly: `pos = 98*(n-1)/100`, so its
floor is the natural-number division `98*(n-1) / 100` and its fractional
part is `(98*(n-1) % 100) / 100`. -/
def nanpercentile98 (xs : List ℚ) : ℚ :=
  let s := xs.insertionSort (· ≤ ·)
  let n := s.length
  if n = 0 then 0
  else
    let num := 98 * (n - 1)
    let i := num / 100
    let frac : ℚ := ((num % 100 : ℕ) : ℚ) / 100
    let lo := s.getD i 0
    let hi := s.getD (min (i + 1) (n - 1)) 0
    lo + frac * (hi - lo)

/-- Element-wise difference of two matrices (`tfr_R_ch.data[0] - tfr_L_ch.data[0]`). -/
def subMat (A B : List (List ℚ)) : List (List ℚ) :=
  List.zipWith (List.zipWith (· - ·)) A B

/-- Element-wise negation of a matrix. -/
def negMat (A : List (List ℚ)) : List (List ℚ) :=
  A.map (List.map (fun x => -x))

/-- `np.abs` of a matrix, flattened the way numpy's percentile flattens
its input. -/
def absFlat (A : List (List ℚ)) : List ℚ :=
  (A.map (List.map (fun x => |x|))).flatten

/-- `vmax = np.nanpercentile(np.abs(diff), 98)` (line 69). -/
def vmaxOf (d : List (List ℚ)) : ℚ := nanpercentile98 (absFlat d)

/-- `vmin = -vmax` (line 70). -/
def vminOf (d : List (List ℚ)) : ℚ := -vmaxOf d

/-- A time-frequency map: explicit frequency and time axes plus a
frequency × time data array, for one condition and one picked channel. -/
structure TFMap (α : Type) where
  freqs : List ℚ
  times : List ℚ
  data : List (List α)
deriving Repr, DecidableEq

/-- The contrast result: difference map plus the symmetric display range. -/
structure ContrastMap where
  data : List (List ℚ)
  vmin : ℚ
  vmax : ℚ
deriving Repr, DecidableEq

/-- The contrast stage: element-wise difference of the first map minus the
second, plus the derived display range (lines 64-70).  The axis check is
modelled from the spec: `AxisMismatchError` if the two maps' frequency or
time axes differ. -/
def contrastEngine (A B : TFMap ℚ) : Except String ContrastMap :=
  if A.freqs = B.freqs ∧ A.times = B.times then
    let d := subMat A.data B.data
    .ok ⟨d, vminOf d, vmaxOf d⟩
  else
    .error "AxisMismatchError"

theorem zipWith_sub_comm (A B : List ℚ) :
    List.zipWith (· - ·) A B = (List.zipWith (· - ·) B A).map (fun x => -x) := by
  induction A generalizing B with
  | nil => cases B <;> simp
  | cons a as ih =>
    cases B with
    | nil => simp
    | cons b bs => simp [ih, neg_sub]

theorem subMat_comm (A B : List (List ℚ)) :
    subMat A B = negMat (subMat B A) := by
  unfold subMat negMat
  induction A generalizing B with
  | nil => cases B <;> simp
  | cons a as ih =>
    cases B with
    | nil => simp
    | cons b bs => simpa [zipWith_sub_comm a b] using ih bs

theorem abs_zipWith_sub_comm (A B : List ℚ) :
    (List.zipWith (· - ·) A B).map (fun x => |x|)
      = (List.zipWith (· - ·) B A).map (fun x => |x|) := by
  induction A generalizing B with
  | nil => cases B <;> simp
  | cons a as ih =>
    cases B with
    | nil => simp
    | cons b bs => simp [ih bs, abs_sub_comm]

theorem absFlat_subMat_comm (A B : List (List ℚ)) :
    absFlat (subMat A B) = absFlat (subMat B A) := by
  unfold absFlat subMat
  induction A generalizing B with
  | nil => cases B <;> simp
  | cons a as ih =>
    cases B with
    | nil => simp
    | cons b bs => simp [abs_zipWith_sub_comm a b, ih bs]

theorem mem_of_getD (s : List ℚ) (i : ℕ) (hall : ∀ x ∈ s, 0 ≤ x) :
    0 ≤ s.getD i 0 := by
  by_cases h : i < s.length
  · rw [List.getD_eq_getElem s 0 h]
    exact hall _ (List.getElem_mem h)
  · rw [List.getD_eq_default s 0 (Nat.le_of_not_lt h)]

theorem nanpercentile98_nonneg (xs : List ℚ) (hall : ∀ x ∈ xs, 0 ≤ x) :
    0 ≤ nanpercentile98 xs := by
  unfold nanpercentile98
  set s := xs.insertionSort (· ≤ ·) with hs
  have hmem : ∀ x ∈ s, 0 ≤ x := by
    intro x hx
    exact hall x ((List.perm_insertionSort (· ≤ ·) xs).mem_iff.mp hx)
  by_cases hn : s.length = 0
  · simp [hn]
  · simp only [hn, if_false]
    have hlo := mem_of_getD s (98 * (s.length - 1) / 100) hmem
    have hhi := mem_of_getD s (min (98 * (s.length - 1) / 100 + 1) (s.length - 1)) hmem
    have hfrac0 : (0 : ℚ) ≤ ((98 * (s.length - 1) % 100 : ℕ) : ℚ) / 100 := by positivity
    have hfrac1 : ((98 * (s.length - 1) % 100 : ℕ) : ℚ) / 100 ≤ 1 := by
      rw [div_le_one (by norm_num)]
      have : 98 * (s.length - 1) % 100 < 100 := Nat.mod_lt _ (by norm_num)
      exact_mod_cast this.le
    nlinarith

theorem absFlat_entries_nonneg (d : List (List ℚ)) : ∀ x ∈ absFlat d, 0 ≤ x := by
  intro x hx
  simp only [absFlat, List.mem_flatten, List.mem_map] at hx
  obtain ⟨l, ⟨r, _, hr⟩, hxl⟩ := hx
  subst hr
  simp only [List.mem_map] at hxl
  obtain ⟨y, _, hy⟩ := hxl
  subst hy
  exact abs_nonneg y

/-- C1: swapping the argument order of the contrast stage negates every
element of the difference map and leaves the derived display range
`(vmin, vmax)` unchanged, for any two maps with identical axes. -/
theorem contrastEngine_antisymm (A B : TFMap ℚ)
    (hf : A.freqs = B.freqs) (ht : A.times = B.times) :
    ∃ c c', contrastEngine A B = .ok c ∧ contrastEngine B A = .ok c' ∧
      c.data = negMat c'.data ∧ c.vmin = c'.vmin ∧ c.vmax = c'.vmax := by
  refine ⟨⟨subMat A.data B.data, vminOf (subMat A.data B.data), vmaxOf (subMat A.data B.data)⟩,
         ⟨subMat B.data A.data, vminOf (subMat B.data A.data), vmaxOf (subMat B.data A.data)⟩,
         ?_, ?_, ?_, ?_, ?_⟩
  · simp [contrastEngine, hf, ht]
  · simp [contrastEngine, hf.symm, ht.symm]
  · exact subMat_comm A.data B.data
  · simp [vminOf, vmaxOf, absFlat_subMat_comm A.data B.data]
  · simp [vmaxOf, absFlat_subMat_comm A.data B.data]

/-- Witness for C1 at concrete maps. -/
theorem contrastEngine_antisymm_witness :
    ∃ c c', contrastEngine ⟨[4, 5], [0, 1], [[1, 3], [5, 2]]⟩ ⟨[4, 5], [0, 1], [[0, 7], [2, 2]]⟩ = .ok c ∧
      contrastEngine ⟨[4, 5], [0, 1], [[0, 7], [2, 2]]⟩ ⟨[4, 5], [0, 1], [[1, 3], [5, 2]]⟩ = .ok c' ∧
      c.data = negMat c'.data ∧ c.vmin = c'.vmin ∧ c.vmax = c'.vmax :=
  contrastEngine_antisymm ⟨[4, 5], [0, 1], [[1, 3], [5, 2]]⟩ ⟨[4, 5], [0, 1], [[0, 7], [2, 2]]⟩
    rfl rfl

/-- C7: the display range of a successful contrast satisfies
`vmax = 98th percentile of |first - second|` (computed over the flattened
absolute difference, all entries finite in this exact-arithmetic model),
`vmin = -vmax`, and `vmax` is non-negative. -/
theorem contrast_display_range (A B : TFMap ℚ) (c : ContrastMap)
    (h : contrastEngine A B = .ok c) :
    c.vmax = nanpercentile98 (absFlat (subMat A.data B.data)) ∧
    c.vmin = -c.vmax ∧ 0 ≤ c.vmax := by
  unfold contrastEngine at h
  by_cases hax : A.freqs = B.freqs ∧ A.times = B.times
  · rw [if_pos hax] at h
    cases h
    refine ⟨rfl, rfl, ?_⟩
    exact nanpercentile98_nonneg _ (absFlat_entries_nonneg _)
  · rw [if_neg hax] at h
    cases h

/-- Witness for C7 at concrete maps. -/
theorem contrast_display_range_witness :
    (⟨[[1]], -1, 1⟩ : ContrastMap).vmax
        = nanpercentile98 (absFlat (subMat [[1]] [[0]])) ∧
    (⟨[[1]], -1, 1⟩ : ContrastMap).vmin = -(⟨[[1]], -1, 1⟩ : ContrastMap).vmax ∧
    (0 : ℚ) ≤ (⟨[[1]], -1, 1⟩ : ContrastMap).vmax :=
  contrast_display_range ⟨[10], [0], [[1]]⟩ ⟨[10], [0], [[0]]⟩ ⟨[[1]], -1, 1⟩
    (by norm_num [contrastEngine, subMat, vminOf, vmaxOf, absFlat, nanpercentile98,
      List.insertionSort, List.orderedInsert])

/-- Arithmetic mean of a list of reals (`0` for the empty list). -/
noncomputable def listMeanR (xs : List ℝ) : ℝ := xs.sum / xs.length

/-- Modelled from the spec: the logratio baseline normalization of one
frequency row (`apply_baseline(baseline=(-0.2, 0.0), mode="logratio")`,
line 58; §4.5 of the design): compute the mean power over the baseline
window of the row, then replace every value `p` of the row by
`log10(p / baseline_mean)`.  The baseline window is the index range
`[i0, i0 + n)` that the `(bmin, bmax)` interval selects on the time axis. -/
noncomputable def logratioRow (i0 n : ℕ) (row : List ℝ) : List ℝ :=
  let m := listMeanR (window row i0 n)
  row.map (fun p => Real.logb 10 (p / m))

/-- Logratio normalization of a whole frequency × time map, row by row. -/
noncomputable def applyBaselineLogratio (i0 n : ℕ) (M : List (List ℝ)) : List (List ℝ) :=
  M.map (logratioRow i0 n)

/-- Counterexample to C2: for the row `[1/10, 10]` with the baseline window
covering both samples, the baseline-window mean of the logratio-normalized
values is below `-1/2`, not approximately `0`: the transform guarantees a
unit *arithmetic* mean of the ratios, which forces the mean of their logs
to `0` only when the baseline power is constant. -/
theorem logratio_baseline_mean_counterexample :
    listMeanR (window (logratioRow 0 2 [1/10, 10]) 0 2) < -(1/2) := by
  have hm : listMeanR (window ([1/10, 10] : List ℝ) 0 2) = 101/20 := by
    simp [listMeanR, window]
    norm_num
  have hrow : logratioRow 0 2 [1/10, 10]
      = [Real.logb 10 (2/101), Real.logb 10 (200/101)] := by
    simp only [logratioRow, hm, List.map_cons, List.map_nil]
    norm_num
  have hsum : Real.logb 10 (2/101) + Real.logb 10 (200/101)
      = Real.logb 10 (400/10201) := by
    rw [← Real.logb_mul (by norm_num) (by norm_num)]
    norm_num
  have hlt : Real.logb 10 (400/10201) < -1 := by
    rw [Real.logb, div_lt_iff₀ (Real.log_pos (by norm_num))]
    have h3 : Real.log ((400:ℝ)/10201) < Real.log (1/10) :=
      Real.log_lt_log (by norm_num) (by norm_num)
    have h4 : Real.log ((1:ℝ)/10) = -Real.log 10 := by
      rw [one_div, Real.log_inv]
    linarith
  rw [hrow]
  simp only [window, List.drop_zero, List.take]
  simp only [listMeanR, List.sum_cons, List.sum_nil, List.length_cons, List.length_nil]
  push_cast
  rw [div_lt_iff₀ (by norm_num : (0:ℝ) < 2)]
  linarith

theorem sum_map_div (l : List ℝ) (m : ℝ) :
    (l.map (fun p => p / m)).sum = l.sum / m := by
  induction l with
  | nil => simp
  | cons a as ih => simp [ih, add_div]

/-- C2 (amended): per frequency row, the baseline-window arithmetic mean of
the *ratios* `p / baseline_mean` is exactly `1` (whenever the baseline mean
is nonzero), and the baseline-window mean of the logratio-normalized values
is exactly `0` whenever the row's power is constant over the baseline
window; in general that mean of logs is negative rather than `≈ 0`. -/
theorem logratio_baseline_identities (row : List ℝ) (i0 n : ℕ) (c : ℝ)
    (hn : n ≠ 0) (hlen : (window row i0 n).length = n) :
    (listMeanR (window row i0 n) ≠ 0 →
      listMeanR (window (row.map
        (fun p => p / listMeanR (window row i0 n))) i0 n) = 1) ∧
    ((∀ p ∈ window row i0 n, p = c) → 0 < c →
      listMeanR (window (logratioRow i0 n row) i0 n) = 0) := by
  have hwmap : ∀ f : ℝ → ℝ, window (row.map f) i0 n = (window row i0 n).map f := by
    intro f
    simp [window, List.map_drop, List.map_take]
  constructor
  · intro hm
    have hsum : (window row i0 n).sum ≠ 0 := by
      intro h0
      apply hm
      unfold listMeanR
      rw [h0, zero_div]
    rw [hwmap]
    simp only [listMeanR] at hm ⊢
    rw [sum_map_div, List.length_map, hlen]
    have hncast : ((n : ℝ)) ≠ 0 := Nat.cast_ne_zero.mpr hn
    field_simp
  · intro hconst hc
    have hrep : window row i0 n = List.replicate n c :=
      List.eq_replicate_iff.mpr ⟨hlen, hconst⟩
    have hm : listMeanR (window row i0 n) = c := by
      unfold listMeanR
      rw [hrep, List.sum_replicate, List.length_replicate]
      simp only [nsmul_eq_mul]
      rw [mul_comm, mul_div_assoc, div_self (Nat.cast_ne_zero.mpr hn), mul_one]
    simp only [logratioRow]
    rw [hm, hwmap, hrep]
    simp only [List.map_replicate, div_self (ne_of_gt hc), Real.logb_one]
    unfold listMeanR
    rw [List.sum_replicate, List.length_replicate]
    simp

/-- Witness for C2 (amended) at the constant row `[2, 2]`. -/
theorem logratio_baseline_identities_witness :
    (listMeanR (window ([2, 2] : List ℝ) 0 2) ≠ 0 →
      listMeanR (window (([2, 2] : List ℝ).map
        (fun p => p / listMeanR (window ([2, 2] : List ℝ) 0 2))) 0 2) = 1) ∧
    ((∀ p ∈ window ([2, 2] : List ℝ) 0 2, p = (2:ℝ)) → (0:ℝ) < 2 →
      listMeanR (window (logratioRow 0 2 [2, 2]) 0 2) = 0) :=
  logratio_baseline_identities [2, 2] 0 2 2 (by norm_num) (by simp [window])

/-- `np.linspace(a, b, n)` in exact arithmetic: `n` evenly spaced points
from `a` to `b` inclusive, step `(b - a)/(n - 1)`. -/
def linspace (a b : ℚ) (n : ℕ) : List ℚ :=
  (List.range n).map (fun i : ℕ => a + (i : ℚ) * ((b - a) / ((n : ℚ) - 1)))

/-- The frequency grid of `erp_and_tfr_figure.py` line 45:
`freqs = np.linspace(4, 40, 50)`. -/
def freqs : List ℚ := linspace 4 40 50

/-- The frequency grid of `tfr_mne_sample.py` line 38:
`freqs = np.linspace(4, 30, 40)`. -/
def freqsSample : List ℚ := linspace 4 30 40

/-- The per-frequency wavelet cycle count, `n_cycles = freqs / 2.0`
(line 46 resp. line 39). -/
def n_cycles (f : ℚ) : ℚ := f / 2

/-- Modelled from the spec: the temporal support of a complex Morlet
wavelet at frequency `f` with `c` cycles scales with `c / f` (the duration
of `c` carrier periods; the Gaussian envelope's standard deviation is this
quantity divided by `2π`).  The wavelet construction itself lives in the
MNE library, not in this repository. -/
def waveletTemporalSupport (f c : ℚ) : ℚ := c / f

theorem linspace_pos (a b : ℚ) (n : ℕ) (ha : 0 < a) (hab : a ≤ b) :
    ∀ f ∈ linspace a b n, 0 < f := by
  intro f hf
  unfold linspace at hf
  obtain ⟨i, hi, hfi⟩ := List.mem_map.mp hf
  subst hfi
  have hn1 : (0:ℚ) ≤ (n:ℚ) - 1 := by
    have h0 : i < n := List.mem_range.mp hi
    have h1 : 1 ≤ n := by omega
    have h2 : (1:ℚ) ≤ (n:ℚ) := by exact_mod_cast h1
    linarith
  have hstep : (0:ℚ) ≤ (i : ℚ) * ((b - a) / ((n:ℚ) - 1)) :=
    mul_nonneg (by positivity) (div_nonneg (by linarith) hn1)
  linarith

/-- Counterexample to C3's final clause: under the program's cycle rule
`c(f) = f/2`, the wavelet temporal support `c(f)/f` is `1/2` at the lowest
(4 Hz) and at the highest (40 Hz) grid frequency alike — the widths are
uniform across the grid, i.e. a fixed-width analysis. -/
theorem wavelet_fixed_width_counterexample :
    (4 : ℚ) ∈ freqs ∧ (40 : ℚ) ∈ freqs ∧
    waveletTemporalSupport 4 (n_cycles 4) = 1/2 ∧
    waveletTemporalSupport 40 (n_cycles 40) = 1/2 := by
  refine ⟨?_, ?_, ?_, ?_⟩
  · unfold freqs linspace
    refine List.mem_map.mpr ⟨0, ?_, ?_⟩
    · decide
    · norm_num
  · unfold freqs linspace
    refine List.mem_map.mpr ⟨49, ?_, ?_⟩
    · decide
    · norm_num
  · norm_num [waveletTemporalSupport, n_cycles]
  · norm_num [waveletTemporalSupport, n_cycles]

/-- C3 (amended): the Morlet wavelet's temporal support scales with
`c(f)/f`; under this program's cycle rule `c(f) = f/2` that quotient is
`1/2` at every grid frequency of both scripts, so the temporal support is
in fact uniform across frequencies — the parameterization degenerates to a
fixed-width analysis rather than an adaptive one. -/
theorem wavelet_support_uniform :
    (∀ f ∈ freqs, waveletTemporalSupport f (n_cycles f) = 1/2) ∧
    (∀ f ∈ freqsSample, waveletTemporalSupport f (n_cycles f) = 1/2) := by
  constructor
  · intro f hf
    have hpos : 0 < f := linspace_pos 4 40 50 (by norm_num) (by norm_num) f hf
    unfold waveletTemporalSupport n_cycles
    field_simp
    ring
  · intro f hf
    have hpos : 0 < f := linspace_pos 4 30 40 (by norm_num) (by norm_num) f hf
    unfold waveletTemporalSupport n_cycles
    field_simp
    ring

/-- Witness for C3 (amended) at 4 Hz (first grid) and 30 Hz (second grid). -/
theorem wavelet_support_uniform_witness :
    waveletTemporalSupport 4 (n_cycles 4) = 1/2 ∧
    waveletTemporalSupport 30 (n_cycles 30) = 1/2 :=
  ⟨wavelet_support_uniform.1 4 (by
      unfold freqs linspace
      refine List.mem_map.mpr ⟨0, ?_, ?_⟩
      · decide
      · norm_num),
   wavelet_support_uniform.2 30 (by
      unfold freqsSample linspace
      refine List.mem_map.mpr ⟨39, ?_, ?_⟩
      · decide
      · norm_num)⟩

theorem window_map {α β : Type} (f : α → β) (xs : List α) (i0 n : ℕ) :
    window (xs.map f) i0 n = (window xs i0 n).map f := by
  simp [window, List.map_drop, List.map_take]

theorem window_length {α : Type} (xs : List α) (i0 n : ℕ)
    (h : i0 + n ≤ xs.length) : (window xs i0 n).length = n := by
  simp only [window, List.length_take, List.length_drop]
  omega

theorem sum_map_sub (l : List ℚ) (m : ℚ) :
    (l.map (fun x => x - m)).sum = l.sum - l.length * m := by
  induction l with
  | nil => simp
  | cons a as ih =>
    simp only [List.map_cons, List.sum_cons, ih, List.length_cons]
    push_cast
    ring

/-- Modelled from the spec: per-channel baseline correction of one channel
waveform — subtract the mean amplitude over the baseline window from every
sample.  `mne.Epochs(..., baseline=(-0.2, 0.0))` (line 23) applies this
once per epoch and channel when the epochs are constructed. -/
def baselineCorrectChannel (i0 n : ℕ) (xs : List ℚ) : List ℚ :=
  let m := listMean (window xs i0 n)
  xs.map (fun x => x - m)

/-- Baseline correction of a whole epoch (channels × time). -/
def baselineCorrectEpoch (i0 n : ℕ) (e : List (List ℚ)) : List (List ℚ) :=
  e.map (baselineCorrectChannel i0 n)

/-- Element-wise sum of two equally-shaped matrices. -/
def matAdd (A B : List (List ℚ)) : List (List ℚ) :=
  List.zipWith (List.zipWith (· + ·)) A B

/-- Multiply every matrix entry by a scalar. -/
def scaleMat (c : ℚ) (A : List (List ℚ)) : List (List ℚ) :=
  A.map (List.map (fun x => c * x))

/-- Sample-wise mean of a list of equally-shaped matrices, computed with a
deterministic left-fold summation order (the reduction inside
`epochs.average()` and inside the across-epoch power average). -/
def meanMats (Ms : List (List (List ℚ))) : List (List ℚ) :=
  match Ms with
  | [] => []
  | M :: rest => scaleMat (1 / ((rest.length + 1 : ℕ) : ℚ)) (rest.foldl matAdd M)

/-- The evoked branch (lines 33-37): baseline-correct every epoch once,
per trial, then average sample-wise across the corrected epochs. -/
def evokedAverager (i0 n : ℕ) (es : List (List (List ℚ))) : List (List ℚ) :=
  meanMats (es.map (baselineCorrectEpoch i0 n))

theorem mean_baselineCorrect (i0 n : ℕ) (xs : List ℚ)
    (hn : n ≠ 0) (hlen : i0 + n ≤ xs.length) :
    listMean (window (baselineCorrectChannel i0 n xs) i0 n) = 0 := by
  unfold baselineCorrectChannel
  rw [window_map]
  simp only [listMean]
  rw [sum_map_sub, List.length_map, window_length xs i0 n hlen]
  have hc : ((n:ℚ)) ≠ 0 := Nat.cast_ne_zero.mpr hn
  field_simp

/-- C5: baseline correction happens once per trial, before averaging: every
corrected epoch has per-channel baseline-window mean exactly `0`, and the
evoked average is the sample-wise mean of the corrected epochs. -/
theorem evoked_baseline_per_trial (i0 n : ℕ) (es : List (List (List ℚ)))
    (e : List (List ℚ)) (he : e ∈ es) (xs : List ℚ) (hxs : xs ∈ e)
    (hn : n ≠ 0) (hlen : i0 + n ≤ xs.length) :
    listMean (window (baselineCorrectChannel i0 n xs) i0 n) = 0 ∧
    evokedAverager i0 n es = meanMats (es.map (baselineCorrectEpoch i0 n)) :=
  ⟨mean_baselineCorrect i0 n xs hn hlen, rfl⟩

/-- Witness for C5 at a one-epoch, one-channel set. -/
theorem evoked_baseline_per_trial_witness :
    listMean (window (baselineCorrectChannel 0 2 [1, 3]) 0 2) = 0 ∧
    evokedAverager 0 2 [[[1, 3]]] = meanMats ([[[1, 3]]].map (baselineCorrectEpoch 0 2)) :=
  evoked_baseline_per_trial 0 2 [[[1, 3]]] [[1, 3]] (by simp) [1, 3] (by simp)
    (by norm_num) (by simp)

/-- A complex number as an exact pair of rationals. -/
structure Cplx where
  re : ℚ
  im : ℚ
deriving Repr, DecidableEq

/-- Complex addition. -/
def cAdd (z w : Cplx) : Cplx := ⟨z.re + w.re, z.im + w.im⟩

/-- Complex zero. -/
def cZero : Cplx := ⟨0, 0⟩

/-- A real signal sample times a complex wavelet coefficient. -/
def cSmul (a : ℚ) (z : Cplx) : Cplx := ⟨a * z.re, a * z.im⟩

/-- Squared magnitude of a complex value. -/
def normSq (z : Cplx) : ℚ := z.re * z.re + z.im * z.im

/-- Modelled from the spec: one output sample of the discrete convolution
of a real channel signal with a complex Morlet wavelet,
`∑ k, sig[t+k] * w[k]` (zero padding past the signal end; the library's
exact alignment convention does not affect the properties proved here). -/
def convAt (sig : List ℚ) (w : List Cplx) (t : ℕ) : Cplx :=
  (w.enum.map (fun kw => cSmul (sig.getD (t + kw.1) 0) kw.2)).foldl cAdd cZero

/-- Modelled from the spec: same-length complex convolution of a signal
with one wavelet. -/
def convolve (sig : List ℚ) (w : List Cplx) : List Cplx :=
  (List.range sig.length).map (convAt sig w)

/-- Instantaneous power: the squared magnitude of the complex convolution
output at every time sample (§4.4). -/
def powerRow (sig : List ℚ) (w : List Cplx) : List ℚ :=
  (convolve sig w).map normSq

/-- One epoch's power map: one row per wavelet, i.e. per grid frequency. -/
def tfrEpoch (wavelets : List (List Cplx)) (sig : List ℚ) : List (List ℚ) :=
  wavelets.map (powerRow sig)

/-- The across-epoch average of the per-epoch power maps
(`compute_tfr(..., return_itc=False, average=True)`, lines 48-55): power -
not complex amplitude - is averaged, with a deterministic left-fold
summation order. -/
def tfrAverage (wavelets : List (List Cplx)) (sigs : List (List ℚ)) : List (List ℚ) :=
  meanMats (sigs.map (tfrEpoch wavelets))

theorem zipWith_add_nonneg (r s : List ℚ)
    (hr : ∀ x ∈ r, 0 ≤ x) (hs : ∀ x ∈ s, 0 ≤ x) :
    ∀ x ∈ List.zipWith (· + ·) r s, 0 ≤ x := by
  induction r generalizing s with
  | nil => simp
  | cons a as ih =>
    cases s with
    | nil => simp
    | cons b bs =>
      intro x hx
      simp only [List.zipWith_cons_cons, List.mem_cons] at hx
      rcases hx with h | h
      · subst h
        exact add_nonneg (hr a (by simp)) (hs b (by simp))
      · exact ih bs (fun y hy => hr y (List.mem_cons_of_mem a hy))
          (fun y hy => hs y (List.mem_cons_of_mem b hy)) x h

/-- Entry-wise non-negativity of a matrix. -/
def MatNonneg (M : List (List ℚ)) : Prop := ∀ r ∈ M, ∀ x ∈ r, 0 ≤ x

theorem matAdd_nonneg (A B : List (List ℚ)) (hA : MatNonneg A) (hB : MatNonneg B) :
    MatNonneg (matAdd A B) := by
  intro r hr
  unfold matAdd at hr
  induction A generalizing B with
  | nil => simp at hr
  | cons a as ih =>
    cases B with
    | nil => simp at hr
    | cons b bs =>
      simp only [List.zipWith_cons_cons, List.mem_cons] at hr
      rcases hr with h | h
      · subst h
        exact zipWith_add_nonneg a b (hA a (by simp)) (hB b (by simp))
      · exact ih bs (fun y hy => hA y (List.mem_cons_of_mem a hy))
          (fun y hy => hB y (List.mem_cons_of_mem b hy)) h

theorem foldl_matAdd_nonneg (Ms : List (List (List ℚ))) (A : List (List ℚ))
    (hA : MatNonneg A) (hMs : ∀ M ∈ Ms, MatNonneg M) :
    MatNonneg (Ms.foldl matAdd A) := by
  induction Ms generalizing A with
  | nil => simpa using hA
  | cons M rest ih =>
    simp only [List.foldl_cons]
    exact ih (matAdd A M) (matAdd_nonneg A M hA (hMs M (by simp)))
      (fun N hN => hMs N (List.mem_cons_of_mem M hN))

theorem scaleMat_nonneg (c : ℚ) (hc : 0 ≤ c) (A : List (List ℚ))
    (hA : MatNonneg A) : MatNonneg (scaleMat c A) := by
  intro r hr x hx
  unfold scaleMat at hr
  obtain ⟨r0, hr0, rfl⟩ := List.mem_map.mp hr
  obtain ⟨x0, hx0, rfl⟩ := List.mem_map.mp hx
  exact mul_nonneg hc (hA r0 hr0 x0 hx0)

theorem meanMats_nonneg (Ms : List (List (List ℚ)))
    (hMs : ∀ M ∈ Ms, MatNonneg M) : MatNonneg (meanMats Ms) := by
  cases Ms with
  | nil => intro r hr; simp [meanMats] at hr
  | cons M rest =>
    unfold meanMats
    apply scaleMat_nonneg _ (by positivity)
    exact foldl_matAdd_nonneg rest M (hMs M (by simp))
      (fun N hN => hMs N (by simp [hN]))

theorem tfrEpoch_nonneg (wavelets : List (List Cplx)) (sig : List ℚ) :
    MatNonneg (tfrEpoch wavelets sig) := by
  intro r hr x hx
  unfold tfrEpoch at hr
  obtain ⟨w, _, rfl⟩ := List.mem_map.mp hr
  unfold powerRow at hx
  obtain ⟨z, _, rfl⟩ := List.mem_map.mp hx
  unfold normSq
  nlinarith [sq_nonneg z.re, sq_nonneg z.im]

/-- C6: every entry of the across-epoch averaged time-frequency map is the
mean of squared magnitudes of complex convolution outputs, hence
non-negative, for every epoch set, wavelet family (grid frequency) and
time point, before any baseline normalization. -/
theorem tfrAverage_nonneg (wavelets : List (List Cplx)) (sigs : List (List ℚ)) :
    ∀ r ∈ tfrAverage wavelets sigs, ∀ x ∈ r, 0 ≤ x := by
  have h : MatNonneg (tfrAverage wavelets sigs) := by
    unfold tfrAverage
    apply meanMats_nonneg
    intro M hM
    obtain ⟨sig, _, rfl⟩ := List.mem_map.mp hM
    exact tfrEpoch_nonneg wavelets sig
  exact h

/-- Witness for C6: one epoch `[1]`, one single-tap wavelet `1 + i`; the
single map entry is `|1 + i|² = 2 ≥ 0`. -/
theorem tfrAverage_nonneg_witness : (0:ℚ) ≤ 2 :=
  tfrAverage_nonneg [[⟨1, 1⟩]] [[1]] [2]
    (by norm_num [tfrAverage, meanMats, tfrEpoch, powerRow, convolve, convAt,
      cSmul, cAdd, cZero, normSq, scaleMat, matAdd, List.enum, List.range_succ])
    2 (by simp)

/-- The effectful steps of `erp_and_tfr_figure.main`, in program order
(lines 7-116). -/
inductive Stage
  | makedirs
  | loadData
  | bandpass
  | segment
  | evokedL
  | evokedR
  | tfrL
  | tfrR
  | baselineL
  | baselineR
  | contrast
  | savefig
  | writeReport
deriving Repr, DecidableEq

/-- The on-disk artifacts the run writes: the PNG figure (line 106) and the
text report (lines 110-114). -/
inductive Artifact
  | figureFile
  | reportFile
deriving Repr, DecidableEq

/-- Which artifact, if any, a stage writes. -/
def artifactsOf : Stage → List Artifact
  | .savefig => [.figureFile]
  | .writeReport => [.reportFile]
  | _ => []

/-- All stages in program order. -/
def stageOrder : List Stage :=
  [.makedirs, .loadData, .bandpass, .segment, .evokedL, .evokedR,
   .tfrL, .tfrR, .baselineL, .baselineR, .contrast, .savefig, .writeReport]

/-- Run the stages in order under a fault model: `fails s = true` means
stage `s` raises.  The script installs no handler and no cleanup, so
execution stops at the first failing stage and every artifact already
written stays on disk.  Returns the artifacts present after the run and
whether it errored. -/
def runStages (fails : Stage → Bool) : List Stage → List Artifact × Bool
  | [] => ([], false)
  | s :: rest =>
    if fails s then ([], true)
    else
      let r := runStages fails rest
      (artifactsOf s ++ r.1, r.2)

/-- Counterexample to C4: if the final report write fails, the run errors
but the figure file - saved by the preceding stage - still exists: a
partial artifact survives the failure. -/
theorem error_atomicity_counterexample :
    (runStages (fun s => s == Stage.writeReport) stageOrder).2 = true ∧
    Artifact.figureFile ∈ (runStages (fun s => s == Stage.writeReport) stageOrder).1 := by
  decide

theorem runStages_append_silent (fails : Stage → Bool) (l tail : List Stage)
    (hsilent : ∀ s ∈ l, artifactsOf s = []) :
    runStages fails (l ++ tail)
      = if l.any fails then ([], true) else runStages fails tail := by
  induction l with
  | nil => simp
  | cons s rest ih =>
    by_cases h : fails s
    · simp [runStages, h]
    · rw [List.cons_append]
      simp [runStages, h, hsilent s (by simp),
        ih (fun t ht => hsilent t (by simp [ht]))]

/-- C4 (amended): a failure in any stage up to and including the figure
save aborts the run with no artifact written, and an errored run never
contains the report; the only possible partial output is the already-saved
figure, and only when the failing stage is the final report write. -/
theorem error_atomicity (fails : Stage → Bool)
    (herr : (runStages fails stageOrder).2 = true) :
    Artifact.reportFile ∉ (runStages fails stageOrder).1 ∧
    ((runStages fails stageOrder).1 ≠ [] →
      (runStages fails stageOrder).1 = [Artifact.figureFile] ∧
        fails Stage.writeReport = true) := by
  have hsplit : stageOrder
      = [Stage.makedirs, Stage.loadData, Stage.bandpass, Stage.segment,
         Stage.evokedL, Stage.evokedR, Stage.tfrL, Stage.tfrR,
         Stage.baselineL, Stage.baselineR, Stage.contrast]
        ++ [Stage.savefig, Stage.writeReport] := rfl
  rw [hsplit, runStages_append_silent fails _ _ (by decide)] at herr ⊢
  by_cases hc : ([Stage.makedirs, Stage.loadData, Stage.bandpass, Stage.segment,
      Stage.evokedL, Stage.evokedR, Stage.tfrL, Stage.tfrR,
      Stage.baselineL, Stage.baselineR, Stage.contrast]).any fails
  · simp [hc]
  · by_cases h11 : fails Stage.savefig
    · simp [hc, h11, runStages]
    · by_cases h12 : fails Stage.writeReport
      · simp [hc, h11, h12, runStages, artifactsOf]
      · rw [if_neg hc] at herr
        simp [runStages, h11, h12, artifactsOf] at herr

/-- Witness for C4 (amended): a failure while saving the figure leaves no
artifact at all. -/
theorem error_atomicity_witness :
    Artifact.reportFile ∉ (runStages (fun s => s == Stage.savefig) stageOrder).1 ∧
    ((runStages (fun s => s == Stage.savefig) stageOrder).1 ≠ [] →
      (runStages (fun s => s == Stage.savefig) stageOrder).1 = [Artifact.figureFile] ∧
        (fun s => s == Stage.savefig) Stage.writeReport = true) :=
  error_atomicity (fun s => s == Stage.savefig) (by decide)

/-- The process-wide numpy RNG state; `np.random.seed(42)`
(`tfr_mne_sample.py` line 6) resets it as a function of the seed alone. -/
structure RngState where
  seed : ℕ
deriving Repr, DecidableEq

/-- `np.random.seed(n)`. -/
def npRandomSeed (n : ℕ) : RngState := ⟨n⟩

/-- Modelled from the spec: the tfr_mne_sample computation with the global
RNG state threaded through explicitly.  No operation between the seeding
and the end of the run draws from the RNG (§9: the seed is dead
configuration), so the pipeline returns the state untouched; the numeric
output is the deterministic left-fold power average `tfrAverage`. -/
def tfrSamplePipeline (rng : RngState) (wavelets : List (List Cplx))
    (sigs : List (List ℚ)) : List (List ℚ) × RngState :=
  (tfrAverage wavelets sigs, rng)

/-- C8: the pipeline output is a deterministic function of the epochs and
wavelet parameters alone: seeding with any two seeds yields identical
output (the seed is dead configuration), and the RNG state is never
advanced during the run. -/
theorem pipeline_seed_independent (s t : ℕ) (wavelets : List (List Cplx))
    (sigs : List (List ℚ)) :
    (tfrSamplePipeline (npRandomSeed s) wavelets sigs).1
      = (tfrSamplePipeline (npRandomSeed t) wavelets sigs).1 ∧
    (tfrSamplePipeline (npRandomSeed s) wavelets sigs).2 = npRandomSeed s :=
  ⟨rfl, rfl⟩

/-- Channel selection (`erp_and_tfr_figure.py` lines 29-30):
`ch = preferred if preferred in epochs.ch_names else epochs.ch_names[0]`
(`none` when the channel list is empty, where `ch_names[0]` would raise). -/
def chooseChannel (preferred : String) (chNames : List String) : Option String :=
  if preferred ∈ chNames then some preferred else chNames.head?

/-- The lines of `results/erp_tfr_report.txt` (lines 110-114), written with
the selected channel `ch` and the two per-condition trial counts. -/
def reportLines (ch : String) (nL nR : ℕ) : List String :=
  ["ERP + TFR figure",
   "Channel: " ++ ch,
   "Epochs L/R: " ++ toString nL ++ " / " ++ toString nR,
   "Outputs: results/erp_tfr_figure.png, results/erp_tfr_report.txt"]

/-- C9: the preferred channel is selected when present, otherwise selection
falls back to the first channel in source order, and whichever channel was
actually used appears in the run's summary report. -/
theorem channel_selection_surfaced (preferred : String) (chNames : List String)
    (c : String) (hc : chooseChannel preferred chNames = some c) (nL nR : ℕ) :
    (preferred ∈ chNames → c = preferred) ∧
    (preferred ∉ chNames → chNames.head? = some c) ∧
    ("Channel: " ++ c) ∈ reportLines c nL nR := by
  unfold chooseChannel at hc
  by_cases h : preferred ∈ chNames
  · rw [if_pos h] at hc
    have hpc : preferred = c := Option.some.inj hc
    subst hpc
    exact ⟨fun _ => rfl, fun h' => absurd h h', by simp [reportLines]⟩
  · rw [if_neg h] at hc
    exact ⟨fun h' => absurd h' h, fun _ => hc, by simp [reportLines]⟩

/-- Witness for C9 in the fallback case: the preferred name is absent, the
first channel is chosen and surfaced in the report. -/
theorem channel_selection_surfaced_witness :
    ("EEG 999" ∈ ["EEG 014", "EEG 015"] → "EEG 014" = "EEG 999") ∧
    ("EEG 999" ∉ ["EEG 014", "EEG 015"] →
      (["EEG 014", "EEG 015"] : List String).head? = some "EEG 014") ∧
    ("Channel: " ++ "EEG 014") ∈ reportLines "EEG 014" 120 118 :=
  channel_selection_surfaced "EEG 999" ["EEG 014", "EEG 015"] "EEG 014"
    (by decide) 120 118

/-- numpy-style decimation: keep every `k`-th sample of a sequence (the
`decim` parameter of `compute_tfr`). -/
def decimate (k : ℕ) (xs : List α) : List α :=
  (xs.enum.filter (fun p => p.1 % k == 0)).map (fun p => p.2)

/-- The single-channel map `compute_tfr(method="morlet", freqs=fr,
n_cycles=..., decim=k)` produces (lines 48-55): frequency axis = the
requested grid, time axis = the epochs' shared time axis decimated by `k`,
data = the across-epoch power average, decimated in time after power
computation. -/
def computeTfrMap (fr : List ℚ) (times : List ℚ) (k : ℕ)
    (wavelets : List (List Cplx)) (sigs : List (List ℚ)) : TFMap ℚ :=
  ⟨fr, decimate k times, (tfrAverage wavelets sigs).map (decimate k)⟩

/-- `apply_baseline` (lines 58-59) rewrites the data rows in place and
leaves both axes untouched; the row transform `g` stands for the numeric
logratio step (its numeric content is modelled over `ℝ` by `logratioRow`;
only axis preservation matters here). -/
def applyBaselineOnMap (g : List ℚ → List ℚ) (M : TFMap ℚ) : TFMap ℚ :=
  ⟨M.freqs, M.times, M.data.map g⟩

/-- C10: in the combined run, both conditions' maps are built from the same
segmentation's time axis, the same frequency grid, the same cycle rule and
the same decimation factor, and baseline normalization preserves the axes;
the contrast stage therefore always succeeds on them - its
`AxisMismatchError` branch is unreachable in this program. -/
theorem contrast_axes_match (fr times : List ℚ) (k : ℕ)
    (wavelets : List (List Cplx)) (gL gR : List ℚ → List ℚ)
    (sigsL sigsR : List (List ℚ)) :
    ∃ c, contrastEngine
        (applyBaselineOnMap gL (computeTfrMap fr times k wavelets sigsL))
        (applyBaselineOnMap gR (computeTfrMap fr times k wavelets sigsR))
      = .ok c := by
  unfold contrastEngine applyBaselineOnMap computeTfrMap
  rw [if_pos ⟨rfl, rfl⟩]
  exact ⟨_, rfl⟩

end EegTfr
